import Mathlib

/-!
A shallow embedding of the tempo (BPM) detection pipeline of SonicAlchemy —
the function `detectBPM` of the audio-analysis module — translated statement
by statement from the TypeScript source, together with proofs of the
behavioural properties of its specification.

Modelling conventions:

* Audio samples and all derived quantities are exact rationals (`ℚ`); the
  source computes with IEEE doubles.  Decimal literals of the source
  (`0.2`, `0.33`, `1.3`, `0.25`) are carried over as the rationals they
  denote.
* `Math.sqrt` is not rational-valued, so the envelope stage is parametrised
  by an abstract function `sqrt : ℚ → ℚ`; theorems quantify over it and
  assume only the properties of the real square root that they need (value
  `0` at `0`, nonnegative outputs on nonnegative inputs).
* JavaScript array reads `a[i]` are modelled by `List.getD _ _ 0`; every
  read the source performs is in bounds in every reachable state.
* The low-pass filter stage runs through the Web Audio API
  (`OfflineAudioContext` plus `BiquadFilterNode`), outside this repository's
  source; it is a deterministic, length-preserving transform of the buffer.
  The model takes the filtered channel data as its input list, and
  `detectBPM` below covers everything the source does from
  `renderedBuffer.getChannelData(0)` onwards.  The `OfflineAudioContext`
  constructor throws for unsupported sample rates (every engine rejects
  rates below 100 Hz, in particular all non-positive ones), and the
  surrounding `try/catch` turns that into the result `0`; this is modelled
  by the `sampleRate < 100` guard.
-/

namespace SonicAlchemy

/-- Coarse energy of the 30 s candidate window at `offset`: the source sums
`Math.abs(data[i + j])` for `j = 0, 1000, 2000, …` strictly below
`windowSize`, hence `⌈windowSize / 1000⌉` summands. -/
def windowEnergy (data : List ℚ) (offset ws : ℕ) : ℚ :=
  ((List.range ((ws + 999) / 1000)).map (fun t => |data.getD (offset + 1000 * t) 0|)).sum

/-- Offset of the loudest 30 s window: the source scans offsets
`0, step, 2·step, …` strictly below `data.length - windowSize`, keeping the
first offset of maximal coarse energy (`maxEnergy` starts at `0` and is
updated on strict `>`). -/
def bestOffset (data : List ℚ) (ws step : ℕ) : ℕ :=
  (((List.range ((data.length - ws + step - 1) / step)).map (fun t => t * step)).foldl
    (fun acc i =>
      let e := windowEnergy data i ws
      if acc.1 < e then (e, i) else acc)
    ((0 : ℚ), (0 : ℕ))).2

/-- Stage 2 of `detectBPM` (window selection): if the buffer is longer than
30 s, slice out the loudest 30-second window; `slice(o, o + ws)` is
`drop o` followed by `take ws`. -/
def selectWindow (data : List ℚ) (sr : ℕ) : List ℚ :=
  if 30 * sr < data.length then
    (data.drop (bestOffset data (30 * sr) (2 * sr))).take (30 * sr)
  else data

/-- Fuel-indexed form of the source's RMS envelope loop: one entry per
window of `g` samples, each `sqrt(Σ sample² / g)` — the final, possibly
partial, window is also divided by the full `g`, exactly as in the source.
The fuel only provides structural termination; `volumeLevels` passes
`data.length`, which suffices whenever `g ≥ 1` (for `g = 0` the source loop
itself would not terminate, a case the sample-rate guard excludes). -/
def volumeLevelsAux (sqrt : ℚ → ℚ) (g : ℕ) : ℕ → List ℚ → List ℚ
  | _, [] => []
  | 0, _ => []
  | fuel + 1, data =>
      sqrt (((data.take g).map (fun x => x * x)).sum / (g : ℚ)) ::
        volumeLevelsAux sqrt g fuel (data.drop g)

/-- RMS energy envelope of `data` over fixed windows of `g` samples. -/
def volumeLevels (sqrt : ℚ → ℚ) (g : ℕ) (data : List ℚ) : List ℚ :=
  volumeLevelsAux sqrt g data.length data

/-- Sum of the envelope over the source's dynamic-threshold neighbourhood
`j ∈ [max(0, i - 50), min(length, i + 50))`.  The upper bound is exclusive,
so the window reaches 50 entries to the left but only 49 to the right. -/
def localSum (env : List ℚ) (i : ℕ) : ℚ :=
  ((List.range' (i - 50) (min env.length (i + 50) - (i - 50))).map
    (fun j => env.getD j 0)).sum

/-- Onset-candidate test of the source: the envelope value must exceed
1.3 × the local average and be a weak local maximum (`≥` both immediate
neighbours), edge indices being exempt from the missing comparison. -/
def isCandidate (env : List ℚ) (i : ℕ) : Bool :=
  let current := env.getD i 0
  let count := min env.length (i + 50) - (i - 50)
  decide (localSum env i / (count : ℚ) * (13 / 10) < current) &&
    (decide (i = 0) || decide (env.getD (i - 1) 0 ≤ current)) &&
    (decide (i = env.length - 1) || decide (env.getD (i + 1) 0 ≤ current))

/-- One iteration of the source's peak loop: an onset candidate at envelope
index `i` is accepted at time `i·g/sr` when the peak list is still empty or
the gap to the last accepted time strictly exceeds 0.2 s (the debounce). -/
def peakStep (env : List ℚ) (g sr : ℕ) (peaks : List ℚ) (i : ℕ) : List ℚ :=
  if isCandidate env i then
    if peaks = [] ∨ 1 / 5 < ((i * g : ℕ) : ℚ) / (sr : ℚ) - peaks.getLastD 0 then
      peaks ++ [((i * g : ℕ) : ℚ) / (sr : ℚ)]
    else peaks
  else peaks

/-- Stage 3 of `detectBPM` (onset detection): accepted onset timestamps in
order of acceptance. -/
def detectPeaks (env : List ℚ) (g sr : ℕ) : List ℚ :=
  (List.range env.length).foldl (peakStep env g sr) []

/-- Inner loop of the source's interval collector: walk the onsets after the
current one for at most `fuel` steps (the source loop runs `i = 1, 2, 3, 4`,
so `fuel = 4`), stop at the end of the list or at a falsy (`0`) entry
(`if (!nextPeak) break`), and keep each delta lying in `[0.33, 1.0]`. -/
def innerLoop (t : ℚ) : ℕ → List ℚ → List ℚ
  | 0, _ => []
  | _, [] => []
  | fuel + 1, p :: ps =>
      if p = 0 then []
      else if 33 / 100 ≤ p - t ∧ p - t ≤ 1 then (p - t) :: innerLoop t fuel ps
      else innerLoop t fuel ps

/-- Stage 4 of `detectBPM` (interval collection): the multiset, as a list,
of retained inter-onset intervals. -/
def collectIntervals : List ℚ → List ℚ
  | [] => []
  | t :: rest => innerLoop t 4 rest ++ collectIntervals rest

/-- Interval collection as the specification words it: for each onset,
examine the delta to each of the next `m` onsets (stopping early at the end
of the sequence) and retain exactly those deltas in `[0.33, 1.0]`.  Used to
compare the source behaviour (`m = 4`) against the specified `m = 5`. -/
def collectSpecInner (t : ℚ) (m : ℕ) (rest : List ℚ) : List ℚ :=
  (rest.take m).filterMap
    (fun p => if 33 / 100 ≤ p - t ∧ p - t ≤ 1 then some (p - t) else none)

/-- Specification-level interval collector, parametric in the look-ahead. -/
def collectSpec (m : ℕ) : List ℚ → List ℚ
  | [] => []
  | t :: rest => collectSpecInner t m rest ++ collectSpec m rest

/-- Integer BPM bucket of one interval: `Math.round(60 / interval)`.
`round` on `ℚ` rounds halves towards `+∞`, exactly like `Math.round`. -/
def bpmOf (iv : ℚ) : ℤ := round (60 / iv)

/-- Accumulated histogram weight of bucket `k`: each interval votes `1` for
its own bucket and `0.25` for each of the two neighbouring buckets. -/
def histWeight (intervals : List ℚ) (k : ℤ) : ℚ :=
  (intervals.map (fun iv =>
    (if bpmOf iv = k then (1 : ℚ) else 0) +
      (if bpmOf iv - 1 = k then 1 / 4 else 0) +
      (if bpmOf iv + 1 = k then 1 / 4 else 0))).sum

/-- The histogram's key list.  `Object.keys` on a JavaScript object whose
keys are all array indices (the buckets here are integers ≥ 59) enumerates
them in ascending numeric order, so the model builds the ascending sorted
list of the distinct touched buckets. -/
def histKeys (intervals : List ℚ) : List ℤ :=
  List.insertionSort (· ≤ ·)
    ((intervals.flatMap (fun iv => [bpmOf iv - 1, bpmOf iv, bpmOf iv + 1])).dedup)

/-- The key list sorted by descending weight.  `Array.prototype.sort` is
stable (ES2019) and the comparator is `histogram[b] - histogram[a]`; a
stable sort for a fixed total preorder has a unique result, and
`List.insertionSort` with the relation `hist b ≤ hist a` is such a stable
sort. -/
def candidatesSorted (intervals : List ℚ) : List ℤ :=
  List.insertionSort (fun a b => histWeight intervals b ≤ histWeight intervals a)
    (histKeys intervals)

/-- Stage 5 of `detectBPM` (histogram): the heaviest bucket,
`candidates[0]`. -/
def bestBpm (intervals : List ℚ) : ℤ := (candidatesSorted intervals).headD 0

/-- Any positive rational can be doubled into `[70, ∞)`. -/
theorem doubleUp_exists (b : ℚ) (hb : 0 < b) : ∃ n : ℕ, 70 ≤ 2 ^ n * b := by
  obtain ⟨m, hm⟩ := exists_nat_gt (70 / b)
  have h2 : (m : ℚ) ≤ 2 ^ m := by
    have := (Nat.lt_two_pow m).le
    exact_mod_cast this
  exact ⟨m, ((div_lt_iff₀ hb).mp (lt_of_lt_of_le hm h2)).le⟩

/-- Any rational can be halved into `(-∞, 185]`. -/
theorem halveDown_exists (b : ℚ) : ∃ n : ℕ, b / 2 ^ n ≤ 185 := by
  rcases le_or_lt b 185 with hb | hb
  · exact ⟨0, by simpa using hb⟩
  · have hb0 : (0 : ℚ) < 185 := by norm_num
    obtain ⟨m, hm⟩ := exists_nat_gt (b / 185)
    have h2 : (m : ℚ) ≤ 2 ^ m := by
      have := (Nat.lt_two_pow m).le
      exact_mod_cast this
    refine ⟨m, ?_⟩
    have hpow : (0 : ℚ) < 2 ^ m := by positivity
    rw [div_le_iff₀ hpow]
    have := ((div_lt_iff₀ hb0).mp (lt_of_lt_of_le hm h2)).le
    linarith [this]

/-- The loop `while (bestBpm < 70) bestBpm *= 2`, expressed by its
denotation: multiply by the least power of two that lands at or above 70.
For `bpm ≤ 0` the source loop would not terminate; that branch is
unreachable (histogram buckets are ≥ 59) and is modelled as the identity. -/
def doubleUp (bpm : ℚ) : ℚ :=
  if h : 0 < bpm then 2 ^ Nat.find (doubleUp_exists bpm h) * bpm else bpm

/-- The loop `while (bestBpm > 185) bestBpm /= 2`: divide by the least power
of two that lands at or below 185. -/
def halveDown (bpm : ℚ) : ℚ := bpm / 2 ^ Nat.find (halveDown_exists bpm)

/-- Stage 6 of `detectBPM` (octave correction): double up, then halve
down. -/
def octaveCorrect (bpm : ℚ) : ℚ := halveDown (doubleUp bpm)

/-- Envelope of the selected window, with the source's
`groupSize = Math.floor(sampleRate / 100)`. -/
def pipeEnv (sqrt : ℚ → ℚ) (data : List ℚ) (sr : ℕ) : List ℚ :=
  volumeLevels sqrt (sr / 100) (selectWindow data sr)

/-- Onsets detected on the selected window. -/
def pipePeaks (sqrt : ℚ → ℚ) (data : List ℚ) (sr : ℕ) : List ℚ :=
  detectPeaks (pipeEnv sqrt data sr) (sr / 100) sr

/-- Intervals retained on the selected window. -/
def pipeIntervals (sqrt : ℚ → ℚ) (data : List ℚ) (sr : ℕ) : List ℚ :=
  collectIntervals (pipePeaks sqrt data sr)

/-- The `detectBPM` pipeline from the filtered channel data onwards: guard
against unsupported sample rates, select the loudest window, build the
envelope, detect onsets, collect intervals, and either return the `0`
sentinel (no retained interval) or the octave-corrected heaviest histogram
bucket, rounded. -/
def detectBPM (sqrt : ℚ → ℚ) (data : List ℚ) (sampleRate : ℤ) : ℤ :=
  if sampleRate < 100 then 0
  else if pipeIntervals sqrt data sampleRate.toNat = [] then 0
  else round (octaveCorrect (bestBpm (pipeIntervals sqrt data sampleRate.toNat) : ℚ))

/-- Onset-candidate test as claim C6 words it: the threshold average taken
over the genuinely symmetric neighbourhood `[i - 50, i + 50]` (clipped at
the edges), i.e. `j < min(length, i + 51)`. -/
def isCandidateSym (env : List ℚ) (i : ℕ) : Bool :=
  let current := env.getD i 0
  let count := min env.length (i + 51) - (i - 50)
  decide (((List.range' (i - 50) count).map (fun j => env.getD j 0)).sum / (count : ℚ)
      * (13 / 10) < current) &&
    (decide (i = 0) || decide (env.getD (i - 1) 0 ≤ current)) &&
    (decide (i = env.length - 1) || decide (env.getD (i + 1) 0 ≤ current))

/-- First key of maximal weight in a key list — the reference value that
stability of the sort plus ascending key enumeration pins down for
`candidates[0]`. -/
def firstMaxKey (w : ℤ → ℚ) : List ℤ → ℤ
  | [] => 0
  | [a] => a
  | a :: b :: l => if w (firstMaxKey w (b :: l)) ≤ w a then a else firstMaxKey w (b :: l)

/-! Basic arithmetic facts about rounding and the octave-correction loops. -/

/-- Rounding on `ℚ` is monotone. -/
theorem round_mono_rat (x y : ℚ) (h : x ≤ y) : round x ≤ round y := by
  rw [round_eq, round_eq]
  exact Int.floor_le_floor (by linarith)

/-- Once at or above 70, the doubling loop does nothing. -/
theorem doubleUp_of_le (x : ℚ) (h : 70 ≤ x) : doubleUp x = x := by
  have hx : 0 < x := by linarith
  rw [doubleUp, dif_pos hx]
  have hfind : Nat.find (doubleUp_exists x hx) = 0 :=
    (Nat.find_eq_zero (doubleUp_exists x hx)).mpr (by simpa using h)
  rw [hfind]
  ring

/-- Between 35 and 70, the doubling loop runs exactly once. -/
theorem doubleUp_of_lt (x : ℚ) (h35 : 35 ≤ x) (h : x < 70) : doubleUp x = 2 * x := by
  have hx : 0 < x := by linarith
  rw [doubleUp, dif_pos hx]
  have hfind : Nat.find (doubleUp_exists x hx) = 1 := by
    rw [Nat.find_eq_iff]
    constructor
    · norm_num
      linarith
    · intro n hn
      interval_cases n
      norm_num
      linarith
  rw [hfind]
  ring

/-- At or below 185, the halving loop does nothing. -/
theorem halveDown_of_le (x : ℚ) (h : x ≤ 185) : halveDown x = x := by
  rw [halveDown]
  have hfind : Nat.find (halveDown_exists x) = 0 :=
    (Nat.find_eq_zero (halveDown_exists x)).mpr (by simpa using h)
  rw [hfind]
  norm_num

/-- Between 185 (exclusive) and 370, the halving loop runs exactly once. -/
theorem halveDown_once (x : ℚ) (h1 : 185 < x) (h2 : x ≤ 370) : halveDown x = x / 2 := by
  rw [halveDown]
  have hfind : Nat.find (halveDown_exists x) = 1 := by
    rw [Nat.find_eq_iff]
    constructor
    · norm_num
      linarith
    · intro n hn
      interval_cases n
      norm_num
      linarith
  rw [hfind]
  norm_num

/-- The denotation `doubleUp` satisfies exactly the source loop's unfolding
on positive inputs, the only inputs on which the loop terminates. -/
theorem doubleUp_eq_loop (bpm : ℚ) (h : 0 < bpm) :
    doubleUp bpm = if bpm < 70 then doubleUp (2 * bpm) else bpm := by
  rcases lt_or_le bpm 70 with hlt | hle
  · rw [if_pos hlt]
    have h2 : 0 < 2 * bpm := by linarith
    rw [doubleUp, dif_pos h, doubleUp, dif_pos h2]
    have hne : Nat.find (doubleUp_exists bpm h) ≠ 0 := by
      intro h0
      have := (Nat.find_eq_zero (doubleUp_exists bpm h)).mp h0
      simp at this
      linarith
    have hiff : ∀ n : ℕ, (70 ≤ 2 ^ n * (2 * bpm)) ↔ (70 ≤ 2 ^ (n + 1) * bpm) := by
      intro n
      have : 2 ^ n * (2 * bpm) = 2 ^ (n + 1) * bpm := by ring
      rw [this]
    have hfind : Nat.find (doubleUp_exists (2 * bpm) h2) =
        Nat.find (doubleUp_exists bpm h) - 1 := by
      rw [Nat.find_eq_iff]
      constructor
      · rw [hiff]
        have := Nat.find_spec (doubleUp_exists bpm h)
        have heq : Nat.find (doubleUp_exists bpm h) - 1 + 1 =
            Nat.find (doubleUp_exists bpm h) := by omega
        rw [heq]
        exact this
      · intro n hn
        rw [hiff]
        exact Nat.find_min (doubleUp_exists bpm h) (by omega)
    rw [hfind]
    have hpow : (2 : ℚ) ^ (Nat.find (doubleUp_exists bpm h) - 1) * (2 * bpm) =
        2 ^ (Nat.find (doubleUp_exists bpm h) - 1 + 1) * bpm := by ring
    rw [hpow]
    congr 2
    omega
  · rw [if_neg (not_lt.mpr hle)]
    exact doubleUp_of_le bpm hle

/-- The denotation `halveDown` satisfies exactly the source loop's
unfolding. -/
theorem halveDown_eq_loop (bpm : ℚ) :
    halveDown bpm = if 185 < bpm then halveDown (bpm / 2) else bpm := by
  rcases le_or_lt bpm 185 with hle | hlt
  · rw [if_neg (not_lt.mpr hle)]
    exact halveDown_of_le bpm hle
  · rw [if_pos hlt]
    rw [halveDown, halveDown]
    have hne : Nat.find (halveDown_exists bpm) ≠ 0 := by
      intro h0
      have := (Nat.find_eq_zero (halveDown_exists bpm)).mp h0
      simp at this
      linarith
    have hiff : ∀ n : ℕ, (bpm / 2 / 2 ^ n ≤ 185) ↔ (bpm / 2 ^ (n + 1) ≤ 185) := by
      intro n
      have : bpm / 2 / 2 ^ n = bpm / 2 ^ (n + 1) := by
        rw [div_div, pow_succ, mul_comm]
      rw [this]
    have hfind : Nat.find (halveDown_exists (bpm / 2)) =
        Nat.find (halveDown_exists bpm) - 1 := by
      rw [Nat.find_eq_iff]
      constructor
      · rw [hiff]
        have := Nat.find_spec (halveDown_exists bpm)
        have heq : Nat.find (halveDown_exists bpm) - 1 + 1 =
            Nat.find (halveDown_exists bpm) := by omega
        rw [heq]
        exact this
      · intro n hn
        rw [hiff]
        exact Nat.find_min (halveDown_exists bpm) (by omega)
    rw [hfind]
    have hstep : bpm / 2 / 2 ^ (Nat.find (halveDown_exists bpm) - 1) =
        bpm / 2 ^ (Nat.find (halveDown_exists bpm) - 1 + 1) := by
      rw [div_div, pow_succ, mul_comm]
    rw [hstep]
    have heq2 : Nat.find (halveDown_exists bpm) - 1 + 1 =
        Nat.find (halveDown_exists bpm) := by omega
    rw [heq2]

/-! Envelope length. -/

/-- Ceiling-division recurrence used by the envelope length computation. -/
theorem ceil_div_succ (n g : ℕ) (hg : 0 < g) (hn : 0 < n) :
    (n + g - 1) / g = (n - g + g - 1) / g + 1 := by
  rcases le_or_lt g n with h | h
  · have h1 : n - g + g - 1 = n - 1 := by omega
    have h2 : n + g - 1 = n - 1 + g := by omega
    rw [h1, h2, Nat.add_div_right _ hg]
  · have h1 : n - g + g - 1 = g - 1 := by omega
    have h2 : (g - 1) / g = 0 := Nat.div_eq_of_lt (by omega)
    rw [h1, h2]
    have h5 : (n + g - 1) / g = 1 :=
      Nat.div_eq_of_lt_le (by omega) (by omega)
    rw [h5]

/-- The fuel-indexed envelope loop produces one entry per started window of
`g` samples: `⌈length / g⌉` entries in total, as soon as the fuel covers the
list length. -/
theorem volumeLevelsAux_length (sqrt : ℚ → ℚ) (g : ℕ) (hg : 0 < g) :
    ∀ (fuel : ℕ) (data : List ℚ), data.length ≤ fuel →
      (volumeLevelsAux sqrt g fuel data).length = (data.length + g - 1) / g := by
  intro fuel
  induction fuel with
  | zero =>
      intro data hd
      have hdata : data = [] := List.length_eq_zero.mp (Nat.le_zero.mp hd)
      subst hdata
      have hz : ((0 : ℕ) + g - 1) / g = 0 := Nat.div_eq_of_lt (by omega)
      simpa [volumeLevelsAux] using hz.symm
  | succ fuel ih =>
      intro data hd
      cases data with
      | nil =>
          have hz : ((0 : ℕ) + g - 1) / g = 0 := Nat.div_eq_of_lt (by omega)
          simpa [volumeLevelsAux] using hz.symm
      | cons d ds =>
          have hlen : ((d :: ds).drop g).length = ds.length + 1 - g := by simp
          have hle : ((d :: ds).drop g).length ≤ fuel := by
            rw [hlen]
            have := hd
            simp only [List.length_cons] at this
            omega
          have hrec := ih ((d :: ds).drop g) hle
          simp only [volumeLevelsAux, List.length_cons]
          rw [hrec, hlen]
          rw [ceil_div_succ (ds.length + 1) g hg (by omega)]

/-- Envelope length as a ceiling division. -/
theorem volumeLevels_length (sqrt : ℚ → ℚ) (g : ℕ) (hg : 0 < g) (data : List ℚ) :
    (volumeLevels sqrt g data).length = (data.length + g - 1) / g :=
  volumeLevelsAux_length sqrt g hg data.length data le_rfl

/-! Range of the retained intervals. -/

/-- Every delta the inner collector loop retains lies in `[0.33, 1.0]`. -/
theorem mem_innerLoop (t : ℚ) :
    ∀ (fuel : ℕ) (rest : List ℚ) (d : ℚ), d ∈ innerLoop t fuel rest →
      33 / 100 ≤ d ∧ d ≤ 1 := by
  intro fuel
  induction fuel with
  | zero =>
      intro rest d hd
      simp [innerLoop] at hd
  | succ fuel ih =>
      intro rest d hd
      cases rest with
      | nil => simp [innerLoop] at hd
      | cons p ps =>
          simp only [innerLoop] at hd
          by_cases hp : p = 0
          · rw [if_pos hp] at hd
            simp at hd
          · rw [if_neg hp] at hd
            by_cases hr : 33 / 100 ≤ p - t ∧ p - t ≤ 1
            · rw [if_pos hr] at hd
              rcases List.mem_cons.mp hd with h | h
              · subst h
                exact hr
              · exact ih ps d h
            · rw [if_neg hr] at hd
              exact ih ps d hd

/-- Every retained interval lies in `[0.33, 1.0]`: the strict range filter. -/
theorem mem_collectIntervals :
    ∀ (peaks : List ℚ) (d : ℚ), d ∈ collectIntervals peaks →
      33 / 100 ≤ d ∧ d ≤ 1 := by
  intro peaks
  induction peaks with
  | nil =>
      intro d hd
      simp [collectIntervals] at hd
  | cons t rest ih =>
      intro d hd
      simp only [collectIntervals, List.mem_append] at hd
      rcases hd with h | h
      · exact mem_innerLoop t 4 rest d h
      · exact ih d h

/-! Histogram bucket bounds. -/

/-- Buckets of in-range intervals lie in `[60, 182]`. -/
theorem bpmOf_bounds (iv : ℚ) (h1 : 33 / 100 ≤ iv) (h2 : iv ≤ 1) :
    60 ≤ bpmOf iv ∧ bpmOf iv ≤ 182 := by
  have h0 : (0 : ℚ) < iv := by linarith
  have low : (60 : ℚ) ≤ 60 / iv := by
    rw [le_div_iff₀ h0]
    nlinarith
  have high : 60 / iv ≤ 6000 / 33 := by
    rw [div_le_iff₀ h0]
    nlinarith
  have h60 : round ((60 : ℚ)) = 60 := by norm_num [round_eq]
  have h182 : round ((6000 : ℚ) / 33) = 182 := by norm_num [round_eq]
  constructor
  · have := round_mono_rat _ _ low
    rw [h60] at this
    simpa [bpmOf] using this
  · have := round_mono_rat _ _ high
    rw [h182] at this
    simpa [bpmOf] using this

/-- Membership in the histogram key list. -/
theorem mem_histKeys (intervals : List ℚ) (k : ℤ) :
    k ∈ histKeys intervals ↔
      ∃ iv ∈ intervals, k = bpmOf iv - 1 ∨ k = bpmOf iv ∨ k = bpmOf iv + 1 := by
  simp only [histKeys, List.mem_insertionSort, List.mem_dedup, List.mem_flatMap,
    List.mem_cons, List.mem_singleton, List.not_mem_nil, or_false]

/-- With in-range intervals, every histogram key lies in `[59, 183]`. -/
theorem histKeys_bounds (intervals : List ℚ)
    (hdom : ∀ iv ∈ intervals, 33 / 100 ≤ iv ∧ iv ≤ 1) :
    ∀ k ∈ histKeys intervals, 59 ≤ k ∧ k ≤ 183 := by
  intro k hk
  obtain ⟨iv, hiv, hcase⟩ := (mem_histKeys intervals k).mp hk
  obtain ⟨hb1, hb2⟩ := bpmOf_bounds iv (hdom iv hiv).1 (hdom iv hiv).2
  rcases hcase with h | h | h <;> omega

/-- A nonempty interval list yields a nonempty key list. -/
theorem histKeys_ne_nil (intervals : List ℚ) (h : intervals ≠ []) :
    histKeys intervals ≠ [] := by
  cases intervals with
  | nil => exact absurd rfl h
  | cons iv rest =>
      exact List.ne_nil_of_mem
        ((mem_histKeys _ (bpmOf iv)).mpr
          ⟨iv, List.mem_cons_self iv rest, Or.inr (Or.inl rfl)⟩)

/-- The selected bucket is one of the histogram keys. -/
theorem bestBpm_mem (intervals : List ℚ) (h : intervals ≠ []) :
    bestBpm intervals ∈ histKeys intervals := by
  have hkne := histKeys_ne_nil intervals h
  have hne2 : candidatesSorted intervals ≠ [] := by
    obtain ⟨y, ys, hk⟩ := List.exists_cons_of_ne_nil hkne
    have hy : y ∈ histKeys intervals := by
      rw [hk]
      exact List.mem_cons_self y ys
    have : y ∈ candidatesSorted intervals := by
      rw [candidatesSorted]
      exact (List.mem_insertionSort _).mpr hy
    exact List.ne_nil_of_mem this
  obtain ⟨a, t, hcs⟩ := List.exists_cons_of_ne_nil hne2
  have hb : bestBpm intervals = a := by
    rw [bestBpm, hcs]
    rfl
  have ha : a ∈ candidatesSorted intervals := by
    rw [hcs]
    exact List.mem_cons_self a t
  rw [hb]
  rw [candidatesSorted] at ha
  exact (List.mem_insertionSort _).mp ha

/-! Head of the stable descending-weight sort. -/

/-- The head of the stable descending-weight sort is the first key of
maximal weight. -/
theorem headD_insertionSort_firstMax (w : ℤ → ℚ) :
    ∀ l : List ℤ,
      (List.insertionSort (fun a b => w b ≤ w a) l).headD 0 = firstMaxKey w l := by
  intro l
  induction l with
  | nil => rfl
  | cons a t ih =>
      cases t with
      | nil => simp [List.insertionSort, List.orderedInsert, firstMaxKey]
      | cons b t2 =>
          have hne : List.insertionSort (fun a b => w b ≤ w a) (b :: t2) ≠ [] := by
            intro h0
            have hlen := (List.perm_insertionSort
              (fun a b => w b ≤ w a) (b :: t2)).length_eq
            rw [h0] at hlen
            simp at hlen
          obtain ⟨c, u, hcu⟩ := List.exists_cons_of_ne_nil hne
          have hc : c = firstMaxKey w (b :: t2) := by
            rw [← ih, hcu]
            rfl
          have hstep : List.insertionSort (fun a b => w b ≤ w a) (a :: b :: t2) =
              List.orderedInsert (fun a b => w b ≤ w a) a
                (List.insertionSort (fun a b => w b ≤ w a) (b :: t2)) := rfl
          rw [hstep, hcu]
          simp only [List.orderedInsert, firstMaxKey, ← hc]
          by_cases hac : w c ≤ w a
          · rw [if_pos hac, if_pos hac]
            rfl
          · rw [if_neg hac, if_neg hac]
            rfl

/-- The first maximal key is a member of a nonempty list. -/
theorem firstMaxKey_mem (w : ℤ → ℚ) :
    ∀ l : List ℤ, l ≠ [] → firstMaxKey w l ∈ l := by
  intro l
  induction l with
  | nil => intro h; exact absurd rfl h
  | cons a t ih =>
      intro _
      cases t with
      | nil => simp [firstMaxKey]
      | cons b t2 =>
          simp only [firstMaxKey]
          by_cases h : w (firstMaxKey w (b :: t2)) ≤ w a
          · rw [if_pos h]
            exact List.mem_cons_self a _
          · rw [if_neg h]
            exact List.mem_cons_of_mem a (ih (by simp))

/-- The first maximal key has maximal weight. -/
theorem firstMaxKey_max (w : ℤ → ℚ) :
    ∀ (l : List ℤ) (k : ℤ), k ∈ l → w k ≤ w (firstMaxKey w l) := by
  intro l
  induction l with
  | nil => intro k hk; simp at hk
  | cons a t ih =>
      intro k hk
      cases t with
      | nil =>
          simp only [List.mem_singleton] at hk
          subst hk
          simp [firstMaxKey]
      | cons b t2 =>
          simp only [firstMaxKey]
          by_cases h : w (firstMaxKey w (b :: t2)) ≤ w a
          · rw [if_pos h]
            rcases List.mem_cons.mp hk with rfl | hk2
            · exact le_refl _
            · exact le_trans (ih k hk2) h
          · rw [if_neg h]
            rcases List.mem_cons.mp hk with rfl | hk2
            · exact (not_le.mp h).le
            · exact ih k hk2

/-- On a strictly ascending list, the first maximal key is the least among
the keys of equal (maximal) weight. -/
theorem firstMaxKey_first (w : ℤ → ℚ) :
    ∀ l : List ℤ, l.Pairwise (· < ·) →
      ∀ k ∈ l, w k = w (firstMaxKey w l) → firstMaxKey w l ≤ k := by
  intro l
  induction l with
  | nil => intro _ k hk; simp at hk
  | cons a t ih =>
      intro hp k hk hw
      have hpa := List.pairwise_cons.mp hp
      cases t with
      | nil =>
          simp only [List.mem_singleton] at hk
          subst hk
          simp [firstMaxKey]
      | cons b t2 =>
          simp only [firstMaxKey] at hw ⊢
          by_cases h : w (firstMaxKey w (b :: t2)) ≤ w a
          · rw [if_pos h] at hw ⊢
            rcases List.mem_cons.mp hk with rfl | hk2
            · exact le_refl k
            · exact (hpa.1 k hk2).le
          · rw [if_neg h] at hw ⊢
            rcases List.mem_cons.mp hk with rfl | hk2
            · exact absurd (le_of_eq hw.symm) h
            · exact ih hpa.2 k hk2 hw

/-- The histogram key list is strictly ascending. -/
theorem histKeys_pairwise (intervals : List ℚ) :
    (histKeys intervals).Pairwise (· < ·) := by
  have hsorted : List.Sorted (· ≤ ·) (histKeys intervals) := by
    rw [histKeys]
    exact List.sorted_insertionSort _ _
  have hnodup : (histKeys intervals).Pairwise (· ≠ ·) := by
    rw [histKeys]
    exact ((List.perm_insertionSort _ _).nodup_iff).mpr
      (List.nodup_dedup (intervals.flatMap fun iv =>
        [bpmOf iv - 1, bpmOf iv, bpmOf iv + 1]))
  exact (hsorted.and hnodup).imp fun h => lt_of_le_of_ne h.1 h.2

/-! The debounce invariant of the peak list. -/

/-- One step of the peak loop preserves the strictly-ascending,
gap-over-0.2 chain invariant. -/
theorem chain_peakStep (env : List ℚ) (g sr : ℕ) (acc : List ℚ) (i : ℕ)
    (h : List.Chain' (fun a b : ℚ => a < b ∧ 1 / 5 ≤ b - a) acc) :
    List.Chain' (fun a b : ℚ => a < b ∧ 1 / 5 ≤ b - a) (peakStep env g sr acc i) := by
  rw [peakStep]
  by_cases hc : isCandidate env i = true
  · rw [if_pos hc]
    by_cases hg : acc = [] ∨ 1 / 5 < ((i * g : ℕ) : ℚ) / (sr : ℚ) - acc.getLastD 0
    · rw [if_pos hg]
      rw [List.chain'_append]
      refine ⟨h, List.chain'_singleton _, ?_⟩
      intro x hx y hy
      simp only [List.head?_cons, Option.mem_def, Option.some.injEq] at hy
      subst hy
      have hne : acc ≠ [] := by
        intro h0
        rw [h0] at hx
        simp at hx
      rcases hg with h0 | hgap
      · exact absurd h0 hne
      · have hgl : acc.getLastD 0 = acc.getLast hne := by
          rw [List.getLastD_eq_getLast?, List.getLast?_eq_getLast acc hne]
          rfl
        have hxl : x = acc.getLast hne := by
          rw [List.getLast?_eq_getLast acc hne] at hx
          simp only [Option.mem_def, Option.some.injEq] at hx
          exact hx.symm
        rw [hgl] at hgap
        rw [hxl]
        constructor
        · linarith
        · linarith
    · rw [if_neg hg]
      exact h
  · rw [if_neg hc]
    exact h

/-- The accepted onset timestamps are strictly ascending with consecutive
gaps strictly above 0.2 s. -/
theorem chain_detectPeaks (env : List ℚ) (g sr : ℕ) :
    List.Chain' (fun a b : ℚ => a < b ∧ 1 / 5 ≤ b - a) (detectPeaks env g sr) := by
  rw [detectPeaks]
  have hgen : ∀ (l : List ℕ) (acc : List ℚ),
      List.Chain' (fun a b : ℚ => a < b ∧ 1 / 5 ≤ b - a) acc →
      List.Chain' (fun a b : ℚ => a < b ∧ 1 / 5 ≤ b - a)
        (l.foldl (peakStep env g sr) acc) := by
    intro l
    induction l with
    | nil => intro acc hacc; exact hacc
    | cons i l2 ih =>
        intro acc hacc
        rw [List.foldl_cons]
        exact ih _ (chain_peakStep env g sr acc i hacc)
  exact hgen _ [] List.chain'_nil

/-! Degenerate inputs: all-zero buffers and buffers shorter than a window. -/

/-- Reading anywhere in an all-zero list yields zero. -/
theorem getD_zero_of_all_zero (l : List ℚ) (h : ∀ x ∈ l, x = 0) (n : ℕ) :
    l.getD n 0 = 0 := by
  rcases lt_or_le n l.length with hn | hn
  · rw [List.getD_eq_getElem l 0 hn]
    exact h _ (List.getElem_mem hn)
  · exact List.getD_eq_default l 0 hn

/-- The neighbourhood sum over an all-zero envelope vanishes. -/
theorem localSum_zero (env : List ℚ) (h : ∀ x ∈ env, x = 0) (i : ℕ) :
    localSum env i = 0 := by
  rw [localSum]
  apply List.sum_eq_zero
  intro x hx
  obtain ⟨j, _, hj⟩ := List.mem_map.mp hx
  rw [← hj]
  exact getD_zero_of_all_zero env h j

/-- No index of an all-zero envelope is an onset candidate: `0 > 1.3 · 0`
fails. -/
theorem isCandidate_zero (env : List ℚ) (h : ∀ x ∈ env, x = 0) (i : ℕ) :
    isCandidate env i = false := by
  have h1 : localSum env i = 0 := localSum_zero env h i
  have h2 : env.getD i 0 = 0 := getD_zero_of_all_zero env h i
  simp only [isCandidate, h1, h2, zero_div, zero_mul]
  simp

/-- With no candidates, the peak loop accepts nothing. -/
theorem detectPeaks_no_candidate (env : List ℚ) (g sr : ℕ)
    (h : ∀ i, isCandidate env i = false) : detectPeaks env g sr = [] := by
  rw [detectPeaks]
  have hgen : ∀ (l : List ℕ) (acc : List ℚ), l.foldl (peakStep env g sr) acc = acc := by
    intro l
    induction l with
    | nil => intro acc; rfl
    | cons i l2 ih =>
        intro acc
        rw [List.foldl_cons, peakStep, h i]
        simp only [Bool.false_eq_true, if_false]
        exact ih acc
  exact hgen _ []

/-- All envelope entries of an all-zero buffer are zero (only `sqrt 0 = 0`
is needed of the abstract square root). -/
theorem volumeLevelsAux_zero (sqrt : ℚ → ℚ) (h0 : sqrt 0 = 0) (g : ℕ) :
    ∀ (fuel : ℕ) (data : List ℚ), (∀ x ∈ data, x = 0) →
      ∀ v ∈ volumeLevelsAux sqrt g fuel data, v = 0 := by
  intro fuel
  induction fuel with
  | zero =>
      intro data _ v hv
      cases data <;> simp [volumeLevelsAux] at hv
  | succ fuel ih =>
      intro data hz v hv
      cases data with
      | nil => simp [volumeLevelsAux] at hv
      | cons d ds =>
          simp only [volumeLevelsAux] at hv
          rcases List.mem_cons.mp hv with rfl | hv2
          · have hsum : (((d :: ds).take g).map (fun x => x * x)).sum = 0 := by
              apply List.sum_eq_zero
              intro y hy
              obtain ⟨x, hx, hxy⟩ := List.mem_map.mp hy
              have hx0 : x = 0 := hz x (List.take_subset g (d :: ds) hx)
              rw [← hxy, hx0, mul_zero]
            rw [hsum, zero_div, h0]
          · exact ih ((d :: ds).drop g)
              (fun x hx => hz x (List.drop_subset g (d :: ds) hx)) v hv2

/-- All envelope entries are nonnegative, given that the abstract square
root maps nonnegatives to nonnegatives. -/
theorem volumeLevelsAux_nonneg (sqrt : ℚ → ℚ)
    (hnn : ∀ x : ℚ, 0 ≤ x → 0 ≤ sqrt x) (g : ℕ) :
    ∀ (fuel : ℕ) (data : List ℚ), ∀ v ∈ volumeLevelsAux sqrt g fuel data, 0 ≤ v := by
  intro fuel
  induction fuel with
  | zero =>
      intro data v hv
      cases data <;> simp [volumeLevelsAux] at hv
  | succ fuel ih =>
      intro data v hv
      cases data with
      | nil => simp [volumeLevelsAux] at hv
      | cons d ds =>
          simp only [volumeLevelsAux] at hv
          rcases List.mem_cons.mp hv with rfl | hv2
          · apply hnn
            apply div_nonneg
            · apply List.sum_nonneg
              intro y hy
              obtain ⟨x, _, hxy⟩ := List.mem_map.mp hy
              rw [← hxy]
              exact mul_self_nonneg x
            · exact Nat.cast_nonneg g
          · exact ih ((d :: ds).drop g) v hv2

/-- Window selection only returns samples of the input buffer. -/
theorem selectWindow_subset (data : List ℚ) (sr : ℕ) :
    ∀ x ∈ selectWindow data sr, x ∈ data := by
  intro x hx
  rw [selectWindow] at hx
  by_cases h : 30 * sr < data.length
  · rw [if_pos h] at hx
    exact List.drop_subset _ data (List.take_subset _ _ hx)
  · rw [if_neg h] at hx
    exact hx

/-- A one-entry envelope has no candidate: its own value is the whole local
average, and `v > 1.3 v` fails for `v ≥ 0`. -/
theorem isCandidate_singleton (v : ℚ) (hv : 0 ≤ v) : isCandidate [v] 0 = false := by
  have hcount : min (List.length [v]) (0 + 50) - (0 - 50) = 1 := by simp
  have h1 : localSum [v] 0 = v := by
    rw [localSum, hcount]
    simp [List.range']
  have hnot : ¬ (v / ((1 : ℕ) : ℚ) * (13 / 10) < v) := by
    push_neg
    rw [Nat.cast_one, div_one]
    nlinarith
  simp only [isCandidate, h1, hcount]
  simp only [List.getD_cons_zero]
  rw [decide_eq_false hnot]
  rfl

/-- An envelope with at most one (nonnegative) entry produces no onset. -/
theorem detectPeaks_short (env : List ℚ) (g sr : ℕ) (hlen : env.length ≤ 1)
    (hnn : ∀ v ∈ env, 0 ≤ v) : detectPeaks env g sr = [] := by
  cases env with
  | nil => rfl
  | cons v t =>
      cases t with
      | nil =>
          rw [detectPeaks]
          have hr : List.range (List.length [v]) = [0] := by
            simp only [List.length_cons, List.length_nil]
            rfl
          rw [hr, List.foldl_cons, peakStep,
            isCandidate_singleton v (hnn v (List.mem_cons_self v []))]
          simp
      | cons y t2 => simp at hlen

/-! The neighbourhood sum as a contiguous slice sum. -/

/-- The index-by-index neighbourhood sum equals the sum of the corresponding
contiguous slice. -/
theorem range'_map_getD_sum (env : List ℚ) :
    ∀ (cnt lo : ℕ), lo + cnt ≤ env.length →
      ((List.range' lo cnt).map (fun j => env.getD j 0)).sum =
        ((env.drop lo).take cnt).sum := by
  intro cnt
  induction cnt with
  | zero => intro lo _; simp
  | succ n ih =>
      intro lo h
      have hlo : lo < env.length := by omega
      rw [List.range'_succ]
      simp only [List.map_cons, List.sum_cons]
      rw [List.drop_eq_getElem_cons hlo, List.take_succ_cons, List.sum_cons]
      rw [List.getD_eq_getElem env 0 hlo]
      have := ih (lo + 1) (by omega)
      rw [this]

/-- Characterisation of the source's onset-candidate test, for indices the
peak loop actually visits: the threshold is taken over the asymmetric
clipped window `[i - 50, i + 50)`. -/
theorem isCandidate_iff (env : List ℚ) (i : ℕ) (h : i < env.length) :
    isCandidate env i = true ↔
      ((env.drop (i - 50)).take (min env.length (i + 50) - (i - 50))).sum /
          ((min env.length (i + 50) - (i - 50) : ℕ) : ℚ) * (13 / 10) < env.getD i 0 ∧
        (i = 0 ∨ env.getD (i - 1) 0 ≤ env.getD i 0) ∧
        (i = env.length - 1 ∨ env.getD (i + 1) 0 ≤ env.getD i 0) := by
  have hbound : (i - 50) + (min env.length (i + 50) - (i - 50)) ≤ env.length := by
    omega
  have hsum := range'_map_getD_sum env (min env.length (i + 50) - (i - 50)) (i - 50) hbound
  rw [isCandidate]
  simp only [Bool.and_eq_true, Bool.or_eq_true, decide_eq_true_eq, localSum]
  rw [hsum, and_assoc]

/-! The interval collector versus its specification. -/

/-- On onset lists with no falsy entries, the source's inner loop agrees
with the take-`fuel`-and-filter description. -/
theorem innerLoop_eq_spec (t : ℚ) :
    ∀ rest : List ℚ, (∀ x ∈ rest, x ≠ 0) →
      ∀ fuel : ℕ, innerLoop t fuel rest = collectSpecInner t fuel rest := by
  intro rest
  induction rest with
  | nil =>
      intro _ fuel
      cases fuel <;> simp [innerLoop, collectSpecInner]
  | cons p ps ih =>
      intro hz fuel
      cases fuel with
      | zero => simp [innerLoop, collectSpecInner]
      | succ n =>
          have hp : ¬ p = 0 := hz p (List.mem_cons_self p ps)
          have hrec := ih (fun x hx => hz x (List.mem_cons_of_mem p hx)) n
          simp only [innerLoop, if_neg hp, collectSpecInner, List.take_succ_cons,
            List.filterMap_cons]
          by_cases hr : 33 / 100 ≤ p - t ∧ p - t ≤ 1
          · rw [if_pos hr, if_pos hr]
            rw [hrec]
            rfl
          · rw [if_neg hr, if_neg hr]
            rw [hrec]
            rfl

/-- On onset lists whose later entries are nonzero — every reachable onset
list is of this shape, since accepted timestamps are strictly ascending and
nonnegative — the collector agrees with the `m = 4` specification. -/
theorem collectIntervals_eq_spec :
    ∀ peaks : List ℚ, (∀ x ∈ peaks.drop 1, x ≠ 0) →
      collectIntervals peaks = collectSpec 4 peaks := by
  intro peaks
  induction peaks with
  | nil => intro _; rfl
  | cons t rest ih =>
      intro hz
      have hz1 : ∀ x ∈ rest, x ≠ 0 := by simpa using hz
      simp only [collectIntervals, collectSpec]
      rw [innerLoop_eq_spec t rest hz1 4,
        ih (fun x hx => hz1 x (List.drop_subset 1 rest hx))]

/-! The claims. -/

/-- C1: for every syntactically valid input (sample buffer plus positive
sample rate), `detectBPM` returns a non-negative integer, and whenever the
result is nonzero it lies in the closed interval `[70, 185]`. -/
theorem claim_C1_result_range (sqrt : ℚ → ℚ) (data : List ℚ) (sampleRate : ℤ)
    (hsr : 0 < sampleRate) :
    0 ≤ detectBPM sqrt data sampleRate ∧
      (detectBPM sqrt data sampleRate ≠ 0 →
        70 ≤ detectBPM sqrt data sampleRate ∧ detectBPM sqrt data sampleRate ≤ 185) := by
  by_cases hg : sampleRate < 100
  · rw [detectBPM, if_pos hg]
    exact ⟨le_refl 0, fun h => absurd rfl h⟩
  · rw [detectBPM, if_neg hg]
    by_cases hiv : pipeIntervals sqrt data sampleRate.toNat = []
    · rw [if_pos hiv]
      exact ⟨le_refl 0, fun h => absurd rfl h⟩
    · rw [if_neg hiv]
      have hdom : ∀ d ∈ pipeIntervals sqrt data sampleRate.toNat,
          33 / 100 ≤ d ∧ d ≤ 1 := by
        intro d hd
        rw [pipeIntervals] at hd
        exact mem_collectIntervals _ d hd
      have hkmem := bestBpm_mem _ hiv
      have hk := histKeys_bounds _ hdom _ hkmem
      set k := bestBpm (pipeIntervals sqrt data sampleRate.toNat) with hkdef
      rcases le_or_lt 70 k with h70 | h70
      · have h70q : (70 : ℚ) ≤ (k : ℚ) := by exact_mod_cast h70
        have h185q : (k : ℚ) ≤ 185 := by
          exact_mod_cast (by omega : k ≤ (185 : ℤ))
        have hoct : octaveCorrect (k : ℚ) = (k : ℚ) := by
          rw [octaveCorrect, doubleUp_of_le _ h70q, halveDown_of_le _ h185q]
        rw [hoct, round_intCast]
        exact ⟨by omega, fun _ => ⟨h70, by omega⟩⟩
      · have h35 : (35 : ℚ) ≤ (k : ℚ) := by
          exact_mod_cast (by omega : (35 : ℤ) ≤ k)
        have h70q : (k : ℚ) < 70 := by exact_mod_cast h70
        have hoct : octaveCorrect (k : ℚ) = ((2 * k : ℤ) : ℚ) := by
          have hb : 2 * (k : ℚ) ≤ 185 := by
            have : (k : ℚ) ≤ 69 := by exact_mod_cast (by omega : k ≤ (69 : ℤ))
            linarith
          rw [octaveCorrect, doubleUp_of_lt _ h35 h70q, halveDown_of_le _ hb]
          push_cast
          ring
        rw [hoct, round_intCast]
        exact ⟨by omega, fun _ => ⟨by omega, by omega⟩⟩

/-- C1 (witness): instance of the range property at a concrete input. -/
theorem claim_C1_result_range_witness :
    0 < (44100 : ℤ) ∧
      (0 ≤ detectBPM id [] 44100 ∧
        (detectBPM id [] 44100 ≠ 0 →
          70 ≤ detectBPM id [] 44100 ∧ detectBPM id [] 44100 ≤ 185)) :=
  ⟨by norm_num, claim_C1_result_range id [] 44100 (by norm_num)⟩

/-- C2: for every malformed or degenerate input — non-positive sample rate,
or a buffer shorter than one onset-detection window of
`⌊sampleRate / 100⌋` samples — `detectBPM` returns `0`.  The embedding is a
total function, which is the model-level form of raising no exception and
performing no out-of-bounds access. -/
theorem claim_C2_degenerate (sqrt : ℚ → ℚ) (hnn : ∀ x : ℚ, 0 ≤ x → 0 ≤ sqrt x)
    (data : List ℚ) (sampleRate : ℤ)
    (h : sampleRate ≤ 0 ∨ (data.length : ℤ) < sampleRate / 100) :
    detectBPM sqrt data sampleRate = 0 := by
  by_cases hg : sampleRate < 100
  · rw [detectBPM, if_pos hg]
  · push_neg at hg
    have hlen : data.length < sampleRate.toNat / 100 := by
      rcases h with h | h
      · omega
      · omega
    rw [detectBPM, if_neg (not_lt.mpr hg)]
    have hg100 : 100 ≤ sampleRate.toNat := by omega
    have hns : ¬ (30 * sampleRate.toNat < data.length) := by omega
    have hsel : selectWindow data sampleRate.toNat = data := by
      rw [selectWindow, if_neg hns]
    have henvlen : (pipeEnv sqrt data sampleRate.toNat).length ≤ 1 := by
      rw [pipeEnv, hsel,
        volumeLevels_length sqrt (sampleRate.toNat / 100) (by omega) data]
      have h2 : data.length + sampleRate.toNat / 100 - 1 <
          2 * (sampleRate.toNat / 100) := by omega
      have := (Nat.div_lt_iff_lt_mul (by omega : 0 < sampleRate.toNat / 100)).mpr
        (by omega : data.length + sampleRate.toNat / 100 - 1 <
          2 * (sampleRate.toNat / 100))
      omega
    have henn : ∀ v ∈ pipeEnv sqrt data sampleRate.toNat, 0 ≤ v := by
      rw [pipeEnv, volumeLevels]
      intro v hv
      exact volumeLevelsAux_nonneg sqrt hnn _ _ _ v hv
    have hpeaks : pipePeaks sqrt data sampleRate.toNat = [] := by
      rw [pipePeaks]
      exact detectPeaks_short _ _ _ henvlen henn
    have hiv : pipeIntervals sqrt data sampleRate.toNat = [] := by
      rw [pipeIntervals, hpeaks]
      rfl
    rw [if_pos hiv]

/-- C2 (witness): a 5-sample buffer at 44100 Hz (one onset window is 441
samples) yields the sentinel `0`. -/
theorem claim_C2_degenerate_witness :
    ((44100 : ℤ) ≤ 0 ∨ ((List.replicate 5 (0 : ℚ)).length : ℤ) < 44100 / 100) ∧
      detectBPM id (List.replicate 5 0) 44100 = 0 := by
  have h : (44100 : ℤ) ≤ 0 ∨ ((List.replicate 5 (0 : ℚ)).length : ℤ) < 44100 / 100 := by
    right
    simp
  exact ⟨h, claim_C2_degenerate id (fun x hx => hx) (List.replicate 5 0) 44100 h⟩

/-- C3 (counterexample): the raw estimate 70 is left unchanged by octave
correction — `while (bpm < 70)` does not fire at exactly 70 — so the three
raw estimates 140, 280 and 70 do not all land in the bucket 140. -/
theorem claim_C3_counterexample :
    round (octaveCorrect 70) = 70 ∧ (70 : ℤ) ≠ 140 := by
  constructor
  · rw [octaveCorrect, doubleUp_of_le 70 (by norm_num), halveDown_of_le 70 (by norm_num)]
    norm_num [round_eq]
  · decide

/-- C3 (amended): octave correction folds the raw estimates 140 and 280 to
the canonical 140, while the raw estimate 70, already inside `[70, 185]`,
is returned unchanged as 70. -/
theorem claim_C3_octave_fold :
    round (octaveCorrect 140) = 140 ∧ round (octaveCorrect 280) = 140 ∧
      round (octaveCorrect 70) = 70 := by
  refine ⟨?_, ?_, ?_⟩
  · rw [octaveCorrect, doubleUp_of_le 140 (by norm_num),
      halveDown_of_le 140 (by norm_num)]
    norm_num [round_eq]
  · rw [octaveCorrect, doubleUp_of_le 280 (by norm_num),
      halveDown_once 280 (by norm_num) (by norm_num)]
    norm_num [round_eq]
  · rw [octaveCorrect, doubleUp_of_le 70 (by norm_num),
      halveDown_of_le 70 (by norm_num)]
    norm_num [round_eq]

/-- C4 (counterexample): the source's inner loop runs `i = 1..4`, so the
delta from an onset to the fifth-next onset is never examined: on the onset
sequence `0, 0.1, 0.2, 0.3, 0.4, 0.5` the delta `0.5` (to the fifth-next
onset) lies in `[0.33, 1.0]` but is not retained, while the next-5
description retains it. -/
theorem claim_C4_counterexample :
    collectIntervals [0, 1/10, 1/5, 3/10, 2/5, 1/2] = [2/5, 2/5] ∧
      collectSpec 5 [0, 1/10, 1/5, 3/10, 2/5, 1/2] = [2/5, 1/2, 2/5] ∧
      ¬ ((1 : ℚ)/2 ∈ collectIntervals [0, 1/10, 1/5, 3/10, 2/5, 1/2]) := by
  refine ⟨?_, ?_, ?_⟩
  · norm_num [collectIntervals, innerLoop]
  · norm_num [collectSpec, collectSpecInner, List.filterMap_cons]
  · norm_num [collectIntervals, innerLoop]

/-- C4 (amended): on onset sequences whose entries after the first are
nonzero — every sequence the onset detector can produce is of this shape —
the interval collector examines, for each onset `k`, the deltas to the next
4 onsets (`k+1 … k+4`, stopping early at the end), retaining exactly the
deltas in `[0.33, 1.0]` seconds. -/
theorem claim_C4_collector (peaks : List ℚ) (h : ∀ x ∈ peaks.drop 1, x ≠ 0) :
    collectIntervals peaks = collectSpec 4 peaks :=
  collectIntervals_eq_spec peaks h

/-- C4 (witness): instance of the collector description at a concrete onset
sequence. -/
theorem claim_C4_collector_witness :
    (∀ x ∈ ([0, 2/5, 4/5] : List ℚ).drop 1, x ≠ 0) ∧
      collectIntervals [0, 2/5, 4/5] = collectSpec 4 [0, 2/5, 4/5] := by
  have hz : ∀ x ∈ ([0, 2/5, 4/5] : List ℚ).drop 1, x ≠ 0 := by
    intro x hx
    simp only [List.drop, List.mem_cons, List.not_mem_nil, or_false] at hx
    rcases hx with rfl | rfl <;> norm_num
  exact ⟨hz, claim_C4_collector _ hz⟩

/-- C5: whenever no interval survives collection — in particular on every
all-zero (silent) buffer — `detectBPM` returns the sentinel `0`; by the
shape of the definition the octave-correction stage is bypassed (the `0`
branch is taken before `octaveCorrect` is consulted). -/
theorem claim_C5_empty_evidence (sqrt : ℚ → ℚ) (h0 : sqrt 0 = 0) (data : List ℚ)
    (sampleRate : ℤ) (n : ℕ) :
    (pipeIntervals sqrt data sampleRate.toNat = [] →
      detectBPM sqrt data sampleRate = 0) ∧
      detectBPM sqrt (List.replicate n 0) sampleRate = 0 := by
  constructor
  · intro hiv
    rw [detectBPM]
    by_cases hg : sampleRate < 100
    · rw [if_pos hg]
    · rw [if_neg hg, if_pos hiv]
  · rw [detectBPM]
    by_cases hg : sampleRate < 100
    · rw [if_pos hg]
    · rw [if_neg hg]
      have hz : ∀ x ∈ selectWindow (List.replicate n (0 : ℚ)) sampleRate.toNat,
          x = 0 :=
        fun x hx => List.eq_of_mem_replicate
          (selectWindow_subset (List.replicate n 0) sampleRate.toNat x hx)
      have henv : ∀ v ∈ pipeEnv sqrt (List.replicate n 0) sampleRate.toNat,
          v = 0 := by
        rw [pipeEnv, volumeLevels]
        intro v hv
        exact volumeLevelsAux_zero sqrt h0 _ _ _ hz v hv
      have hpeaks : pipePeaks sqrt (List.replicate n 0) sampleRate.toNat = [] := by
        rw [pipePeaks]
        exact detectPeaks_no_candidate _ _ _ (fun i => isCandidate_zero _ henv i)
      have hiv : pipeIntervals sqrt (List.replicate n 0) sampleRate.toNat = [] := by
        rw [pipeIntervals, hpeaks]
        rfl
      rw [if_pos hiv]

/-- C5 (witness): a concrete silent buffer yields the sentinel. -/
theorem claim_C5_empty_evidence_witness :
    detectBPM id (List.replicate 7 0) 44100 = 0 :=
  (claim_C5_empty_evidence id rfl [] 44100 7).2

/-- C6 (counterexample): the source's threshold window is
`[i - 50, i + 50)`, not the symmetric `[i - 50, i + 50]`: on the envelope
`1, 0, …, 0, 100` (49 zeros) at index 0, the source's average over the
first 50 entries is `1/50` and index 0 is marked, while the symmetric
average over all 51 entries is `101/51` and the claimed rule does not mark
it. -/
theorem claim_C6_counterexample :
    isCandidate ((1 : ℚ) :: (List.replicate 49 0 ++ [100])) 0 = true ∧
      isCandidateSym ((1 : ℚ) :: (List.replicate 49 0 ++ [100])) 0 = false := by
  have hlen : ((1 : ℚ) :: (List.replicate 49 0 ++ [100])).length = 51 := by simp
  have htail : List.replicate 49 (0 : ℚ) ++ [100] =
      0 :: (List.replicate 48 0 ++ [100]) := by
    rw [show (49 : ℕ) = 48 + 1 from rfl, List.replicate_succ, List.cons_append]
  have hget0 : ((1 : ℚ) :: (List.replicate 49 0 ++ [100])).getD 0 0 = 1 := rfl
  have hget1 : ((1 : ℚ) :: (List.replicate 49 0 ++ [100])).getD 1 0 = 0 := by
    rw [htail]
    rfl
  have htake50 : (((1 : ℚ) :: (List.replicate 49 0 ++ [100])).take 50).sum = 1 := by
    rw [show (50 : ℕ) = 49 + 1 from rfl, List.take_succ_cons]
    rw [List.take_left' (by simp)]
    simp
  have htake51 : (((1 : ℚ) :: (List.replicate 49 0 ++ [100])).take 51).sum = 101 := by
    rw [List.take_of_length_le (le_of_eq hlen)]
    simp only [List.sum_cons, List.sum_append, List.sum_replicate, smul_zero]
    norm_num
  constructor
  · rw [isCandidate_iff _ 0 (by rw [hlen]; norm_num)]
    have hcnt : min ((1 : ℚ) :: (List.replicate 49 0 ++ [100])).length (0 + 50) -
        (0 - 50) = 50 := by
      rw [hlen]
      omega
    refine ⟨?_, Or.inl rfl, Or.inr ?_⟩
    · rw [hcnt]
      rw [show ((1 : ℚ) :: (List.replicate 49 0 ++ [100])).drop (0 - 50) =
        (1 : ℚ) :: (List.replicate 49 0 ++ [100]) from rfl]
      rw [htake50, hget0]
      norm_num
    · rw [hget1, hget0]
      norm_num
  · simp only [isCandidateSym]
    have hcnt2 : min ((1 : ℚ) :: (List.replicate 49 0 ++ [100])).length (0 + 51) -
        (0 - 50) = 51 := by
      rw [hlen]
      omega
    rw [hcnt2]
    have hsum := range'_map_getD_sum ((1 : ℚ) :: (List.replicate 49 0 ++ [100]))
      51 (0 - 50) (by rw [hlen])
    rw [hsum]
    rw [show ((1 : ℚ) :: (List.replicate 49 0 ++ [100])).drop (0 - 50) =
      (1 : ℚ) :: (List.replicate 49 0 ++ [100]) from rfl]
    rw [htake51, hget0]
    rw [decide_eq_false (by norm_num : ¬ ((101 : ℚ) / ((51 : ℕ) : ℚ) * (13 / 10) < 1))]
    rfl

/-- C6 (amended): for every envelope index `i` the loop visits, the onset
detector marks `i` as a candidate iff the envelope value exceeds 1.3 times
the mean over the clipped window `[max(0, i - 50), min(length, i + 50))` —
50 windows to the left but only 49 to the right — and the value is a weak
local maximum, edge indices being exempt from the missing comparison. -/
theorem claim_C6_candidate_rule (env : List ℚ) (i : ℕ) (h : i < env.length) :
    isCandidate env i = true ↔
      ((env.drop (i - 50)).take (min env.length (i + 50) - (i - 50))).sum /
          ((min env.length (i + 50) - (i - 50) : ℕ) : ℚ) * (13 / 10) < env.getD i 0 ∧
        (i = 0 ∨ env.getD (i - 1) 0 ≤ env.getD i 0) ∧
        (i = env.length - 1 ∨ env.getD (i + 1) 0 ≤ env.getD i 0) :=
  isCandidate_iff env i h

/-- C6 (witness): instance of the candidate rule on a one-entry
envelope. -/
theorem claim_C6_candidate_rule_witness :
    0 < [(1 : ℚ)].length ∧
      (isCandidate [(1 : ℚ)] 0 = true ↔
        (([(1 : ℚ)].drop (0 - 50)).take (min [(1 : ℚ)].length (0 + 50) - (0 - 50))).sum /
            ((min [(1 : ℚ)].length (0 + 50) - (0 - 50) : ℕ) : ℚ) * (13 / 10) <
            [(1 : ℚ)].getD 0 0 ∧
          (0 = 0 ∨ [(1 : ℚ)].getD (0 - 1) 0 ≤ [(1 : ℚ)].getD 0 0) ∧
          (0 = [(1 : ℚ)].length - 1 ∨ [(1 : ℚ)].getD (0 + 1) 0 ≤ [(1 : ℚ)].getD 0 0)) :=
  ⟨by simp, claim_C6_candidate_rule [(1 : ℚ)] 0 (by simp)⟩

/-- C7: the accepted onset timestamps are strictly ascending and
consecutive timestamps are at least 0.2 s apart (the source in fact
guarantees a strict gap above 0.2 s). -/
theorem claim_C7_onsets_ascending (sqrt : ℚ → ℚ) (data : List ℚ) (sr : ℕ) :
    List.Chain' (fun a b : ℚ => a < b ∧ 1 / 5 ≤ b - a) (pipePeaks sqrt data sr) :=
  chain_detectPeaks _ _ _

/-- C8: `detectBPM` is deterministic — identical buffer and sample rate
yield an identical result.  In the embedding the pipeline is a pure
function; the source has no state outside the call and reads no source of
nondeterminism, which this purity models. -/
theorem claim_C8_deterministic (sqrt : ℚ → ℚ) (data1 data2 : List ℚ)
    (sr1 sr2 : ℤ) (hd : data1 = data2) (hs : sr1 = sr2) :
    detectBPM sqrt data1 sr1 = detectBPM sqrt data2 sr2 := by
  rw [hd, hs]

/-- C8 (witness): instance of determinism at a concrete input. -/
theorem claim_C8_deterministic_witness :
    detectBPM id [] 44100 = detectBPM id [] 44100 :=
  claim_C8_deterministic id [] [] 44100 44100 rfl rfl

/-- C9 (counterexample): the envelope of a 5-sample buffer at 44100 Hz has
1 entry (the loop starts a window for the trailing partial group), while
`buffer_length / window_size = 5 / 441 = 0`: the envelope length is the
ceiling, not the quotient. -/
theorem claim_C9_counterexample :
    (pipeEnv id (List.replicate 5 0) 44100).length = 1 ∧
      (selectWindow (List.replicate 5 0) 44100).length / (44100 / 100) = 0 ∧
      (1 : ℕ) ≠ 0 := by
  have hsel : selectWindow (List.replicate 5 (0 : ℚ)) 44100 = List.replicate 5 0 := by
    rw [selectWindow,
      if_neg (by decide : ¬ (30 * 44100 < (List.replicate 5 (0 : ℚ)).length))]
  refine ⟨?_, ?_, by decide⟩
  · rw [pipeEnv, hsel, volumeLevels_length id (44100 / 100) (by norm_num)]
    decide
  · rw [hsel]
    decide

/-- C9 (amended): the energy envelope has one RMS entry per started window
of `⌊sampleRate / 100⌋` samples: its length is the length of the selected
buffer divided by the window size, rounded up (equal to the plain quotient
exactly when the window size divides the buffer length). -/
theorem claim_C9_envelope_length (sqrt : ℚ → ℚ) (data : List ℚ) (sr : ℕ)
    (h : 100 ≤ sr) :
    (pipeEnv sqrt data sr).length =
      ((selectWindow data sr).length + sr / 100 - 1) / (sr / 100) := by
  rw [pipeEnv]
  exact volumeLevels_length sqrt (sr / 100) (by omega) (selectWindow data sr)

/-- C9 (witness): instance of the envelope length formula. -/
theorem claim_C9_envelope_length_witness :
    100 ≤ 44100 ∧
      (pipeEnv id (List.replicate 5 0) 44100).length =
        ((selectWindow (List.replicate 5 0) 44100).length + 44100 / 100 - 1) /
          (44100 / 100) :=
  ⟨by norm_num, claim_C9_envelope_length id (List.replicate 5 0) 44100 (by norm_num)⟩

/-- C10: histogram bucket selection is deterministic on ties.  For every
multiset of in-range intervals, the selected bucket is a histogram key of
maximal accumulated weight, and among the keys sharing that maximal weight
it is the smallest BPM value — the consequence of enumerating the
integer-keyed buckets in ascending order and sorting with a stable sort by
descending weight. -/
theorem claim_C10_tie_break (intervals : List ℚ)
    (hdom : ∀ iv ∈ intervals, 33 / 100 ≤ iv ∧ iv ≤ 1) (hne : intervals ≠ []) :
    bestBpm intervals ∈ histKeys intervals ∧
      (∀ k ∈ histKeys intervals,
        histWeight intervals k ≤ histWeight intervals (bestBpm intervals)) ∧
      (∀ k ∈ histKeys intervals,
        histWeight intervals k = histWeight intervals (bestBpm intervals) →
          bestBpm intervals ≤ k) := by
  have hfm : bestBpm intervals =
      firstMaxKey (histWeight intervals) (histKeys intervals) := by
    rw [bestBpm, candidatesSorted]
    exact headD_insertionSort_firstMax (histWeight intervals) (histKeys intervals)
  rw [hfm]
  refine ⟨firstMaxKey_mem _ _ (histKeys_ne_nil intervals hne), ?_, ?_⟩
  · intro k hk
    exact firstMaxKey_max _ _ k hk
  · intro k hk hw
    exact firstMaxKey_first _ _ (histKeys_pairwise intervals) k hk hw

/-- C10 (witness): the intervals `0.5` and `1.0` produce a weight tie
between buckets 60 and 120; the selection facts hold at this input. -/
theorem claim_C10_tie_break_witness :
    (∀ iv ∈ ([1/2, 1] : List ℚ), 33 / 100 ≤ iv ∧ iv ≤ 1) ∧
      (bestBpm [1/2, 1] ∈ histKeys [1/2, 1] ∧
        (∀ k ∈ histKeys [1/2, 1],
          histWeight [1/2, 1] k ≤ histWeight [1/2, 1] (bestBpm [1/2, 1])) ∧
        (∀ k ∈ histKeys [1/2, 1],
          histWeight [1/2, 1] k = histWeight [1/2, 1] (bestBpm [1/2, 1]) →
            bestBpm [1/2, 1] ≤ k)) := by
  have hdom : ∀ iv ∈ ([1/2, 1] : List ℚ), 33 / 100 ≤ iv ∧ iv ≤ 1 := by
    intro iv hiv
    rcases List.mem_cons.mp hiv with rfl | hiv2
    · norm_num
    · rcases List.mem_cons.mp hiv2 with rfl | h2
      · norm_num
      · simp at h2
  exact ⟨hdom, claim_C10_tie_break [1/2, 1] hdom (by simp)⟩

end SonicAlchemy
